import Mathlib

/-!
Verification development for the `lmcvm` repository: a Little Man Computer
toolchain consisting of a two-pass assembler (`lmc_assemble` in `src/lmc.c`)
and a fetch-decode-execute interpreter (`lmc_execute` in `src/lmc.c`).

The definitions below are a shallow embedding of the C source.  Machine
integers are modelled as `Nat`/`Int`; C's truncating division and remainder
on `int`/`short` are `Int.tdiv`/`Int.tmod`, and the conversion of a value to
`unsigned char` is `Int.emod · 256`.  Fallible operations return `Except`.
-/

namespace LMCVM

/-! ### Character classification (`ctype.h`, C locale, ASCII) -/

/-- C `isspace` in the C locale: space, tab, newline, vertical tab,
form feed, carriage return. -/
def c_isspace (c : Char) : Bool :=
  c = ' ' || c = '\t' || c = '\n' || c = Char.ofNat 11 || c = Char.ofNat 12 || c = '\r'

/-- C `isalpha` in the C locale (ASCII letters). -/
def c_isalpha (c : Char) : Bool :=
  ('A' ≤ c && c ≤ 'Z') || ('a' ≤ c && c ≤ 'z')

/-- C `isdigit`. -/
def c_isdigit (c : Char) : Bool :=
  '0' ≤ c && c ≤ '9'

/-- C `toupper` in the C locale (ASCII). -/
def c_toupper (c : Char) : Char :=
  if 'a' ≤ c && c ≤ 'z' then Char.ofNat (c.toNat - 32) else c

/-- `program_isspace` from `lmc.c`: whitespace, NUL or the comment marker. -/
def program_isspace (c : Char) : Bool :=
  c_isspace c || c = Char.ofNat 0 || c = ';'

/-- `program_eol` from `lmc.c`: newline or the comment marker. -/
def program_eol (c : Char) : Bool :=
  c = '\n' || c = ';'

/-! ### Tokens (`struct pstring`)

A token is a run of characters from the source buffer plus the 1-based
line/column captured when its first character was seen.  In the C code the
text is a pointer/length view into the buffer; here we store the characters
themselves. -/

structure Token where
  text : List Char
  line : Nat
  column : Nat
deriving DecidableEq, Repr

/-- Case-insensitive equality of two character runs, as computed by
`util_strncasecmp` when it is applied (as in `lmc.c`) to two runs of the same
length with the length as the count. -/
def ciEqB (a b : List Char) : Bool :=
  a.map c_toupper == b.map c_toupper

/-- The opcode mnemonic table `op_names` (the 11 real mnemonics, indices
`HLT = 0` through `OUT = 10`; `OP_COUNT`/`OP_NULL` are never compared). -/
def opNames : List (List Char) :=
  [['H','L','T'], ['A','D','D'], ['S','U','B'], ['S','T','A'], ['D','A','T'],
   ['L','D','A'], ['B','R','A'], ['B','R','Z'], ['B','R','P'], ['I','N','P'],
   ['O','U','T']]

/-- The decode loop `for (op = HLT; op < OP_COUNT; op++)`: first index in
`0..10` whose mnemonic matches the (length-3) token case-insensitively. -/
def findOpcode (t : List Char) : Option Nat :=
  (List.range 11).find? fun i => ciEqB (opNames.getD i []) t

/-- `strtol(start.string, NULL, 10)` on a token whose first character is a
digit: the value of the maximal leading digit run.  (Overflow of C `long` is
not modelled; the assembler only uses `num / 100 % 10` and `num % 100`.) -/
def parseDigitsGo : List Char → Nat → Nat
  | c :: rest, acc =>
    if c_isdigit c then parseDigitsGo rest (acc * 10 + (c.toNat - 48)) else acc
  | [], acc => acc

/-- Value of the leading digit run of a character list. -/
def parseDigits (s : List Char) : Nat := parseDigitsGo s 0

/-! ### The intermediate representation (`struct ir_node`) -/

/-- One IR node: optional label defined at this address, opcode (`none` is
`OP_NULL`; for DAT-style data the stored digit), the numeric operand
(`-1` means unset, as in the C), and an optional symbolic operand. -/
structure IrNode where
  label : Option Token
  op : Option Nat
  offset : Int
  label_offset : Option Token
deriving DecidableEq, Repr

/-- A freshly allocated IR node (`quick_malloc` zeroes it; the code then sets
`op = OP_NULL` and `offset = -1`). -/
def freshNode : IrNode :=
  { label := none, op := none, offset := -1, label_offset := none }

/-! ### Pass 1: the fused tokenizer / instruction builder -/

/-- Assembly-time errors.  `unknownToken` corresponds to the `lexer_fail`
message `"Unknown token on line L:C: <text>"`; `tooLarge` to
`"Program is too large"`. -/
inductive AsmErr where
  | unknownToken (t : Token)
  | tooLarge
deriving DecidableEq, Repr

/-- Rendering of an assembly error to the `error_msg` string produced by the
C code (`sprintf_s` + `strncat_s`; the 200-byte truncation is not modelled). -/
def renderErr : AsmErr → String
  | .unknownToken t =>
    "Unknown token on line " ++ toString t.line ++ ":" ++ toString t.column
      ++ ": " ++ String.mk t.text
  | .tooLarge => "Program is too large"

/-- The mutable state of the pass-1 loop in `lmc_assemble`: the comment flag,
the list of completed IR nodes (the linked list up to, and excluding, the
node currently being built), the current node, the partial token `start`,
the current address and column, and the `cached_labels` array. -/
structure St where
  is_comment : Bool
  nodes : List IrNode
  cur : IrNode
  start : Option Token
  address : Nat
  column : Nat
  labels : List (Option Token)
deriving Repr

/-- Initial pass-1 state (`address = 0`, `column = 1`, zeroed label cache). -/
def initSt : St :=
  { is_comment := false, nodes := [], cur := freshNode, start := none,
    address := 0, column := 1, labels := List.replicate 100 none }

/-- Extending the partial token with a non-space character (lines 128–137 of
`lmc.c`): the first character records the position `(address + 1, column)`. -/
def extendStart (st : St) (c : Char) : St :=
  match st.start with
  | none =>
    { st with start := some { text := [c], line := st.address + 1, column := st.column } }
  | some t =>
    { st with start := some { t with text := t.text ++ [c] } }

/-- First character of a token; tokens are never empty, the default is only
for totality and behaves like a non-alphanumeric character. -/
def firstChar (l : List Char) : Char := l.headD ' '

/-- Processing a completed token (lines 141–192 of `lmc.c`): try to decode an
opcode; otherwise attach a label, a numeric operand or a symbolic operand;
otherwise fail. -/
def processToken (st : St) : Except AsmErr St :=
  match st.start with
  | none => .ok st
  | some tok =>
    -- `op = (isalpha && ir->op == OP_NULL && length == 3) ? <decode loop> : OP_COUNT`
    match (if c_isalpha (firstChar tok.text) && st.cur.op.isNone
              && tok.text.length == 3
           then findOpcode tok.text else none) with
    | some opIdx =>
      -- `ir->op = min(op, 9); if (ir->op == 9) ir->offset = max(0, op - 8);`
      .ok { st with cur :=
        { st.cur with op := some (min opIdx 9),
                      offset := if min opIdx 9 = 9 then max 0 ((opIdx : Int) - 8)
                                else st.cur.offset } }
    | none =>
      if st.cur.label.isNone && c_isalpha (firstChar tok.text)
         && st.cur.op.isNone then
        .ok { st with cur := { st.cur with label := some tok },
                      labels := st.labels.set st.address (some tok) }
      else if st.cur.offset == -1 && st.cur.label_offset.isNone
              && !st.cur.op.isNone then
        if c_isdigit (firstChar tok.text) then
          -- `num = strtol(...); if (ir->op == DAT) ir->op = num / 100 % 10;
          --  ir->offset = num % 100;`
          .ok { st with cur :=
            { st.cur with
                op := some (if st.cur.op == some 4
                            then parseDigits tok.text / 100 % 10
                            else st.cur.op.getD 0),
                offset := (parseDigits tok.text % 100 : Int) } }
        else
          .ok { st with cur := { st.cur with label_offset := some tok } }
      else
        .error (.unknownToken tok)

/-- End-of-instruction handling (lines 195–221 of `lmc.c`): a dangling label
fails; otherwise a node with an opcode is closed, the address advances and
exceeding 100 mailboxes fails. -/
def closeRecord (st : St) : Except AsmErr St :=
  match st.cur.op with
  | none =>
    match st.cur.label with
    | some l => .error (.unknownToken l)
    | none => .ok st
  | some _ =>
    if st.address + 1 ≥ 100 then .error .tooLarge
    else .ok { st with nodes := st.nodes ++ [st.cur], cur := freshNode,
                       address := st.address + 1, column := 0 }

/-- One iteration of the pass-1 loop of `lmc_assemble` on character `c`;
`last` is `(offset + 1) >= length`, i.e. whether `c` is the final character.
The comment branch and the silent-semicolon branch `continue` before the
`column++` at the bottom of the loop. -/
def step1 (st : St) (c : Char) (last : Bool) : Except AsmErr St :=
  if st.is_comment then
    if c = '\n' then .ok { st with is_comment := false } else .ok st
  else
    let st := if c = ';' then { st with is_comment := true } else st
    if c = ';' && st.cur.label.isNone && st.cur.op.isNone && st.start.isNone then
      .ok st
    else
      let st := if !program_isspace c then extendStart st c else st
      if program_isspace c || last then
        match processToken st with
        | .error e => .error e
        | .ok st =>
          match (if program_eol c || last then closeRecord st else .ok st) with
          | .error e => .error e
          | .ok st => .ok { st with start := none, column := st.column + 1 }
      else
        .ok { st with column := st.column + 1 }

/-- The pass-1 loop: fold `step1` over the buffer, passing whether each
character is the last one. -/
def pass1Go : St → List Char → Except AsmErr St
  | st, [] => .ok st
  | st, c :: rest =>
    match step1 st c rest.isEmpty with
    | .error e => .error e
    | .ok st' => pass1Go st' rest

/-- The pass-1 loop restricted to characters that are not the final one
(`(offset + 1) >= length` false throughout): used to reason about a prefix
of the buffer that is always followed by more characters. -/
def pass1GoMid : St → List Char → Except AsmErr St
  | st, [] => .ok st
  | st, c :: rest =>
    match step1 st c false with
    | .error e => .error e
    | .ok st' => pass1GoMid st' rest

/-- The output of pass 1: the completed instruction records and the label
cache. -/
structure Pass1Out where
  nodes : List IrNode
  labels : List (Option Token)
deriving Repr

/-- Pass 1 of `lmc_assemble`: run the loop, then apply the post-loop check
`if (ir->label.string != NULL && ir->op == OP_NULL)` (lines 233–238). -/
def pass1 (src : List Char) : Except AsmErr Pass1Out :=
  match pass1Go initSt src with
  | .error e => .error e
  | .ok st =>
    match st.cur.label, st.cur.op with
    | some l, none => .error (.unknownToken l)
    | _, _ => .ok { nodes := st.nodes, labels := st.labels }

/-! ### Pass 2: the encoder -/

/-- The addresses whose cached label matches the symbolic token: the C scans
all 100 slots, skipping entries of a different length, and compares the text
case-insensitively (lines 253–262 of `lmc.c`). -/
def labelMatches (labels : List (Option Token)) (tok : Token) : List Nat :=
  (List.range 100).filter fun i =>
    match labels.getD i none with
    | some l => l.text.length == tok.text.length && ciEqB l.text tok.text
    | none => false

/-- The packed word for one IR node with opcode digit `opv`
(lines 249–271 of `lmc.c`): `value = op * 100`, plus the sum of all matching
label addresses for a symbolic operand (failing when none match), else plus
`offset % 100` when an offset is attached. -/
def nodeValue (labels : List (Option Token)) (n : IrNode) (opv : Nat)
    : Except AsmErr Int :=
  match n.label_offset with
  | some tok =>
    if (labelMatches labels tok).isEmpty then .error (.unknownToken tok)
    else .ok ((opv : Int) * 100
                + (((labelMatches labels tok).map (Nat.cast : Nat → Int)).sum))
  | none =>
    .ok ((opv : Int) * 100 + (if n.offset ≠ -1 then Int.tmod n.offset 100 else 0))

/-- The pass-2 loop (lines 242–275 of `lmc.c`): walk the nodes, breaking at
an `OP_NULL` node, writing each packed word at the next address. -/
def pass2Go (labels : List (Option Token)) :
    List IrNode → Nat → List Int → Except AsmErr (List Int)
  | [], _, img => .ok img
  | n :: rest, addr, img =>
    match n.op with
    | none => .ok img
    | some opv =>
      match nodeValue labels n opv with
      | .error e => .error e
      | .ok v => pass2Go labels rest (addr + 1) (img.set addr v)

/-- `memset(mailboxes->pool, 0, NUM_MAILBOXES)` at line 89 of `lmc.c`:
`memset` counts bytes and `pool` is `short pool[100]` (200 bytes), so only
the first `NUM_MAILBOXES = 100` bytes — mailboxes 0..49 — are cleared, and
mailboxes 50..99 keep the caller's pre-existing pool contents (`init`, an
uninitialized stack variable in `main.c`). -/
def memset50 (init : List Int) : List Int :=
  List.replicate 50 0 ++ init.drop 50

/-- Pass 2 over the partially-cleared pool: `init` is the pool's contents on
entry to `lmc_assemble`, of which the byte-counted `memset` zeroes only the
first 50 words. -/
def pass2 (init : List Int) (p : Pass1Out) : Except AsmErr (List Int) :=
  pass2Go p.labels p.nodes 0 (memset50 init)

/-- `lmc_assemble`: pass 1 followed by pass 2; `init` is the pool's contents
on entry (the caller never initializes the struct).  On failure the error
replaces the image (in the C the `error_msg` even overlays the pool
union). -/
def assemble (init : List Int) (src : List Char) : Except AsmErr (List Int) :=
  match pass1 src with
  | .error e => .error e
  | .ok p => pass2 init p

/-- Word `i` of an assembly result, `none` when assembly failed or the index
is out of range. -/
def getWord (r : Except AsmErr (List Int)) (i : Nat) : Option Int :=
  match r with
  | .ok img => img[i]?
  | .error _ => none

/-- Whether an `Except` is a success. -/
def exceptOk {ε α : Type} : Except ε α → Bool
  | .ok _ => true
  | .error _ => false

/-! ### The execution engine (`lmc_execute`)

The machine state carries the registers, the mailbox pool, and the two
streams: the input stream as the remaining characters, the output stream as
the list of lines written so far. -/

structure Machine where
  pc : Nat
  acc : Int
  negative : Bool
  pool : List Int
  input : List Char
  output : List String
deriving DecidableEq, Repr

/-- The result of one step (or of a whole run): still `running`, `halted`
(HLT, `return true`), `fault` (the `default` case, `return false` with
`"Unknown opcode N"`), `oob` (a pool access outside `0..99`, which in the C
would be an out-of-bounds array access), or `eof` (`fgets` returning NULL at
end of input, on which the C reads an uninitialized buffer). -/
inductive StepResult where
  | running (m : Machine)
  | halted (m : Machine)
  | fault (code : Int) (m : Machine)
  | oob
  | eof (m : Machine)
deriving DecidableEq, Repr

/-- The decode step (line 316 of `lmc.c`):
`ir = data / 100 + ((data / 100 == INP) ? data % 100 - 1 : 0)` with C
truncating division/remainder (`INP = 9`). -/
def decodeIr (data : Int) : Int :=
  Int.tdiv data 100 + (if Int.tdiv data 100 = 9 then Int.tmod data 100 - 1 else 0)

/-- The address register (line 317): `ar = data % 100` where `ar` is an
`unsigned char`, so the C remainder is converted modulo 256. -/
def arOf (data : Int) : Int :=
  Int.tmod data 100 % 256

/-- `fgets(buffer, n+1, stream)` reading at most `n` characters, stopping
after a newline (inclusive): returns the characters read and the rest of the
stream. -/
def fgetsGo : Nat → List Char → List Char × List Char
  | 0, rest => ([], rest)
  | _ + 1, [] => ([], [])
  | n + 1, c :: rest =>
    if c = '\n' then ([c], rest)
    else
      let p := fgetsGo n rest
      (c :: p.1, p.2)

/-- `fgets(buffer, sizeof(buffer), instream)` with `char buffer[5]`. -/
def fgets4 (input : List Char) : List Char × List Char := fgetsGo 4 input

/-- C `atoi`: skip whitespace, optional sign, leading digits. -/
def atoiChars (s : List Char) : Int :=
  match s.dropWhile c_isspace with
  | '-' :: rest => -(parseDigits rest : Int)
  | '+' :: rest => (parseDigits rest : Int)
  | t => (parseDigits t : Int)

/-- One iteration of the fetch-decode-execute loop of `lmc_execute`
(lines 309–393 of `lmc.c`).  Opcode numbers follow the `enum opcode` order:
`HLT ADD SUB STA DAT LDA BRA BRZ BRP INP OUT` = `0..10`; `DAT = 4` has no
`case` and falls into `default`. -/
def step (m : Machine) : StepResult :=
  match m.pool[m.pc]? with
  | none => .oob
  | some data =>
    let pc1 := (m.pc + 1) % 100
    let ir := decodeIr data
    let ar := (arOf data).toNat
    if ir = 0 then
      .halted { m with pc := pc1 }
    else if ir = 1 then
      match m.pool[ar]? with
      | none => .oob
      | some v =>
        .running { m with pc := pc1, negative := false,
                          acc := Int.tmod (m.acc + v) 1000 }
    else if ir = 2 then
      match m.pool[ar]? with
      | none => .oob
      | some v =>
        .running { m with pc := pc1, negative := decide (m.acc < v),
                          acc := Int.tmod (m.acc - v) 1000 }
    else if ir = 3 then
      if ar < m.pool.length then
        .running { m with pc := pc1, pool := m.pool.set ar m.acc }
      else .oob
    else if ir = 5 then
      match m.pool[ar]? with
      | none => .oob
      | some v =>
        .running { m with pc := pc1, negative := false, acc := v }
    else if ir = 6 then
      .running { m with pc := ar }
    else if ir = 7 then
      .running { m with pc := if m.acc = 0 then ar else pc1 }
    else if ir = 8 then
      .running { m with pc := if m.negative then pc1 else ar }
    else if ir = 9 then
      match fgets4 m.input with
      | ([], _) => .eof { m with pc := pc1 }
      | (b :: bs, rest) =>
        let neg := b == '-'
        .running { m with pc := pc1, negative := neg,
                          acc := if neg then atoiChars bs else atoiChars (b :: bs),
                          input := rest }
    else if ir = 10 then
      .running { m with pc := pc1, output := m.output ++ [toString m.acc] }
    else
      .fault ir { m with pc := pc1 }

/-- Run the interpreter loop for at most `fuel` steps; a non-`running`
result is terminal. -/
def run : Nat → Machine → StepResult
  | 0, m => .running m
  | fuel + 1, m =>
    match step m with
    | .running m' => run fuel m'
    | r => r

/-- The machine carried by a step result (`none` for `oob`). -/
def machineOf : StepResult → Option Machine
  | .running m => some m
  | .halted m => some m
  | .fault _ m => some m
  | .eof m => some m
  | .oob => none

/-- Whether a result is the halted state. -/
def isHalted : StepResult → Bool
  | .halted _ => true
  | _ => false

/-- The initial machine for an assembled image: registers zeroed, negative
flag clear, and the given input stream. -/
def initMachine (pool : List Int) (input : List Char) : Machine :=
  { pc := 0, acc := 0, negative := false, pool := pool, input := input,
    output := [] }

/-! ### Concrete programs and machines used by the claims -/

/-- 96 `HLT` filler lines followed by three `foo BRP foo` lines: the label
text `foo` is defined at addresses 96, 97 and 98, so the encoder's
multi-match fallback sums those addresses. -/
def srcC6 : List Char :=
  List.flatten (List.replicate 96 "HLT\n".toList)
    ++ List.flatten (List.replicate 3 "foo BRP foo\n".toList)

/-- The round-trip program of claim C7. -/
def srcRound : List Char := "INP\nSTA 99\nLDA 99\nOUT\nHLT".toList

/-- The image assembled from `srcRound` when the pool was all-zero on
entry. -/
def roundImg : List Int := [901, 399, 599, 902] ++ List.replicate 96 0

/-- An all-zero 100-word initial pool state. -/
def zeroPool : List Int := List.replicate 100 0

/-- An initial pool state whose mailbox 99 holds the junk value 777. -/
def junkPool : List Int := List.replicate 99 0 ++ [777]

/-- The image assembled from `srcRound` over the pool state `init`: pass 2
writes the five words 901, 399, 599, 902, 0 over the partially-cleared
pool. -/
def roundPool (init : List Int) : List Int :=
  (((((memset50 init).set 0 901).set 1 399).set 2 599).set 3 902).set 4 0

/-- The machine after `INP` reads the input line `7`. -/
def roundM1 (init : List Int) : Machine :=
  { pc := 1, acc := 7, negative := false, pool := roundPool init,
    input := [], output := [] }

/-- The machine after `STA 99` stores the accumulator. -/
def roundM2 (init : List Int) : Machine :=
  { pc := 2, acc := 7, negative := false, pool := (roundPool init).set 99 7,
    input := [], output := [] }

/-- The machine after `LDA 99` loads mailbox 99 back. -/
def roundM3 (init : List Int) : Machine :=
  { pc := 3, acc := 7, negative := false, pool := (roundPool init).set 99 7,
    input := [], output := [] }

/-- The machine after `OUT` prints the accumulator. -/
def roundM4 (init : List Int) : Machine :=
  { pc := 4, acc := 7, negative := false, pool := (roundPool init).set 99 7,
    input := [], output := ["7"] }

/-- The final machine: `HLT` stops execution. -/
def roundMf (init : List Int) : Machine :=
  { pc := 5, acc := 7, negative := false, pool := (roundPool init).set 99 7,
    input := [], output := ["7"] }

/-- The undefined-label program of claim C8. -/
def srcC8 : List Char := "LDA missing\nHLT".toList

/-- The token cited by the error for `srcC8`: text `missing`, line 1,
column 5. -/
def missingTok : Token := { text := "missing".toList, line := 1, column := 5 }

/-- The commented program of claim C9. -/
def srcC9a : List Char := "ADD five ; add five\nfive DAT 5\nHLT".toList

/-- The same program with the comment `; add five` removed. -/
def srcC9b : List Char := "ADD five \nfive DAT 5\nHLT".toList

/-- The image both C9 programs assemble to over the all-zero pool:
`ADD five` packs 101 (label `five` at address 1), the `DAT 5` packs 5,
`HLT` packs 0. -/
def imgC9 : List Int := 101 :: 5 :: List.replicate 98 0

/-- A machine whose first mailbox holds the word 900 (opcode digit 9 with
operand 0). -/
def m900 : Machine := initMachine (900 :: List.replicate 99 0) []

/-- A machine about to execute `SUB 01` (word 201) with accumulator 0 and
mailbox 1 holding 5. -/
def m201 : Machine := initMachine (201 :: 5 :: List.replicate 98 0) []

/-- The machine after `m201` executes `SUB 01`: the accumulator is `-5`. -/
def m201Post : Machine :=
  { pc := 1, acc := -5, negative := true, pool := 201 :: 5 :: List.replicate 98 0,
    input := [], output := [] }

/-- A machine about to execute `INP` (word 901) with input line `-5`. -/
def mInp : Machine := initMachine (901 :: List.replicate 99 0) "-5\n".toList

/-- The machine after `mInp` executes `INP`: the negative flag is set by the
input sign, with no subtraction ever executed. -/
def mInpPost : Machine :=
  { pc := 1, acc := 5, negative := true, pool := 901 :: List.replicate 99 0,
    input := [], output := [] }

/-- A machine whose first mailbox holds 903: opcode digit 9 with an operand
other than 0, 1 or 2. -/
def m903 : Machine := initMachine (903 :: List.replicate 99 0) []

/-- A machine with an all-zero image (every fetch is `HLT`). -/
def mAllZero : Machine := initMachine (List.replicate 100 0) []

/-- The one-instruction program `HLT`. -/
def hltSrc : List Char := "HLT\n".toList

/-- The IR node produced for a bare `HLT`. -/
def hltNode : IrNode :=
  { label := none, op := some 0, offset := -1, label_offset := none }

/-- The pass-1 output for `hltSrc`: one `HLT` record, no labels. -/
def pHlt : Pass1Out :=
  { nodes := [hltNode], labels := List.replicate 100 none }

/-- The pass-1 output for `srcC8`: an `LDA` record with the unresolved
symbolic operand `missing`, then an `HLT` record; no labels. -/
def pC8 : Pass1Out :=
  { nodes :=
      [{ label := none, op := some 5, offset := -1, label_offset := some missingTok },
       { label := none, op := some 0, offset := -1, label_offset := none }],
    labels := List.replicate 100 none }

/-- The first symbolic operand (in node order) whose label text matches no
cached label; pass 2 fails on exactly this token. -/
def firstUnresolved (labels : List (Option Token)) : List IrNode → Option Token
  | [] => none
  | n :: rest =>
    match n.label_offset with
    | some t =>
      if (labelMatches labels t).isEmpty then some t
      else firstUnresolved labels rest
    | none => firstUnresolved labels rest

/-- Well-formedness of an IR node maintained by pass 1: a decoded opcode
digit is at most 9, and the offset is either the unset marker `-1` or a
two-digit value `0..99`. -/
def nodeOk (n : IrNode) : Prop :=
  (∀ v, n.op = some v → v ≤ 9) ∧ (n.offset = -1 ∨ (0 ≤ n.offset ∧ n.offset ≤ 99))

/-- The pass-1 loop invariant: the completed nodes number exactly `address`,
at most 99 instructions have been closed, every completed node is
well-formed with an opcode attached, and the node being built is
well-formed. -/
def stInv (st : St) : Prop :=
  st.nodes.length = st.address ∧ st.address ≤ 99 ∧
    (∀ n ∈ st.nodes, nodeOk n ∧ n.op.isSome) ∧ nodeOk st.cur

/-! ### Theorems -/

set_option maxRecDepth 100000

set_option maxHeartbeats 1000000

/-- The decode loop only yields opcode indices `0..10`. -/
theorem findOpcode_lt {t : List Char} {i : Nat} (h : findOpcode t = some i) :
    i < 11 := by
  have hmem := List.mem_of_find?_eq_some h
  simpa [List.mem_range] using hmem

/-- A freshly allocated node is well-formed. -/
theorem freshNode_ok : nodeOk freshNode := by
  constructor
  · intro v hv; simp [freshNode] at hv
  · left; rfl

/-- The invariant only depends on the nodes, the address and the current
node. -/
theorem stInv_of_eq_fields {st st' : St} (hinv : stInv st)
    (hn : st'.nodes = st.nodes) (ha : st'.address = st.address)
    (hc : st'.cur = st.cur) : stInv st' := by
  obtain ⟨h1, h2, h3, h4⟩ := hinv
  exact ⟨by rw [hn, ha, h1], by rw [ha]; exact h2, by rw [hn]; exact h3,
         by rw [hc]; exact h4⟩

/-- `processToken` preserves the pass-1 invariant (it only rewrites the
current node and the label cache). -/
theorem processToken_inv {st st' : St} (hinv : stInv st)
    (h : processToken st = .ok st') : stInv st' := by
  obtain ⟨h1, h2, h3, h4⟩ := hinv
  unfold processToken at h
  cases hstart : st.start with
  | none =>
    simp only [hstart] at h
    obtain rfl := Except.ok.inj h
    exact ⟨h1, h2, h3, h4⟩
  | some tok =>
    simp only [hstart] at h
    cases hfind : (if c_isalpha (firstChar tok.text) && st.cur.op.isNone
          && tok.text.length == 3
        then findOpcode tok.text else none) with
    | some opIdx =>
      simp only [hfind] at h
      have hlt : opIdx < 11 := by
        by_cases htry : (c_isalpha (firstChar tok.text) && st.cur.op.isNone
            && tok.text.length == 3) = true
        · rw [if_pos htry] at hfind; exact findOpcode_lt hfind
        · rw [if_neg htry] at hfind; cases hfind
      obtain rfl := Except.ok.inj h
      refine ⟨h1, h2, h3, ?_, ?_⟩ <;> dsimp only
      · intro v hv
        simp only [Option.some.injEq] at hv
        omega
      · split
        · right
          refine ⟨le_max_left _ _, ?_⟩
          have hle : ((opIdx : Int) - 8) ≤ 2 := by omega
          omega
        · exact h4.2
    | none =>
      simp only [hfind] at h
      split at h
      · obtain rfl := Except.ok.inj h
        exact ⟨h1, h2, h3, h4.1, h4.2⟩
      · split at h
        · rename_i hcond2
          split at h
          · obtain rfl := Except.ok.inj h
            refine ⟨h1, h2, h3, ?_, ?_⟩ <;> dsimp only
            · intro v hv
              simp only [Option.some.injEq] at hv
              subst hv
              split
              · exact Nat.le_of_lt_succ (Nat.mod_lt _ (by omega))
              · simp only [Bool.and_eq_true, Bool.not_eq_true',
                  Option.isNone_eq_false_iff, Option.isSome_iff_exists] at hcond2
                obtain ⟨w, hw⟩ := hcond2.2
                rw [hw]
                simpa using h4.1 w hw
            · right
              constructor
              · omega
              · have hmod := Nat.mod_lt (parseDigits tok.text) (y := 100) (by omega)
                omega
          · obtain rfl := Except.ok.inj h
            exact ⟨h1, h2, h3, h4.1, h4.2⟩
        · cases h

/-- `closeRecord` preserves the pass-1 invariant: a successful close keeps
the instruction count equal to the address and at most 99. -/
theorem closeRecord_inv {st st' : St} (hinv : stInv st)
    (h : closeRecord st = .ok st') : stInv st' := by
  obtain ⟨h1, h2, h3, h4⟩ := hinv
  unfold closeRecord at h
  cases hop : st.cur.op with
  | none =>
    simp only [hop] at h
    cases hlab : st.cur.label with
    | none =>
      simp only [hlab] at h
      obtain rfl := Except.ok.inj h
      exact ⟨h1, h2, h3, h4⟩
    | some l =>
      simp only [hlab] at h
      exact Except.noConfusion h
  | some v =>
    simp only [hop] at h
    split at h
    · cases h
    · rename_i hlt
      obtain rfl := Except.ok.inj h
      refine ⟨?_, ?_, ?_, freshNode_ok⟩ <;> dsimp only
      · simp [h1]
      · omega
      · intro n hn
        rcases List.mem_append.mp hn with hn | hn
        · exact h3 n hn
        · rcases List.mem_singleton.mp hn with rfl
          exact ⟨h4, by simp [hop]⟩

/-- `extendStart` leaves everything but the partial token unchanged. -/
theorem extendStart_inv {st : St} {c : Char} (hinv : stInv st) :
    stInv (extendStart st c) := by
  obtain ⟨h1, h2, h3, h4⟩ := hinv
  unfold extendStart
  split <;> exact ⟨h1, h2, h3, h4⟩

/-- One pass-1 step preserves the invariant. -/
theorem step1_inv {st st' : St} {c : Char} {last : Bool} (hinv : stInv st)
    (h : step1 st c last = .ok st') : stInv st' := by
  unfold step1 at h
  split at h
  · split at h <;> (obtain rfl := Except.ok.inj h)
    · exact stInv_of_eq_fields hinv rfl rfl rfl
    · exact hinv
  · dsimp only at h
    have hinv1 : stInv (if c = ';' then { st with is_comment := true } else st) := by
      split
      · exact stInv_of_eq_fields hinv rfl rfl rfl
      · exact hinv
    generalize hst1 : (if c = ';' then { st with is_comment := true } else st) = st1 at h hinv1
    split at h
    · obtain rfl := Except.ok.inj h; exact hinv1
    · have hinv2 : stInv (if !program_isspace c then extendStart st1 c else st1) := by
        split
        · exact extendStart_inv hinv1
        · exact hinv1
      generalize hst2 : (if !program_isspace c then extendStart st1 c else st1) = st2
        at h hinv2
      split at h
      · cases hpt : processToken st2 with
        | error e =>
          rw [hpt] at h
          exact Except.noConfusion h
        | ok st3 =>
          simp only [hpt] at h
          have hinv3 : stInv st3 := processToken_inv hinv2 hpt
          cases hcr : (if program_eol c || last then closeRecord st3 else .ok st3) with
          | error e =>
            simp only [hcr] at h
            exact Except.noConfusion h
          | ok st4 =>
            simp only [hcr] at h
            have hinv4 : stInv st4 := by
              by_cases heol : (program_eol c || last) = true
              · rw [if_pos heol] at hcr; exact closeRecord_inv hinv3 hcr
              · rw [if_neg heol] at hcr
                obtain rfl := Except.ok.inj hcr
                exact hinv3
            obtain rfl := Except.ok.inj h
            exact stInv_of_eq_fields hinv4 rfl rfl rfl
      · obtain rfl := Except.ok.inj h
        exact stInv_of_eq_fields hinv2 rfl rfl rfl

/-- The pass-1 loop preserves the invariant. -/
theorem pass1Go_inv {src : List Char} {st st' : St} (hinv : stInv st)
    (h : pass1Go st src = .ok st') : stInv st' := by
  induction src generalizing st with
  | nil => cases h; exact hinv
  | cons c rest ih =>
    unfold pass1Go at h
    split at h
    · cases h
    · rename_i st1 hst1
      exact ih (step1_inv hinv hst1) h

/-- The initial pass-1 state satisfies the invariant. -/
theorem initSt_inv : stInv initSt := by
  refine ⟨rfl, by simp [initSt], ?_, freshNode_ok⟩
  intro n hn
  simp [initSt] at hn

/-- Anything pass 1 accepts has at most 99 instruction records, all
well-formed and all carrying an opcode. -/
theorem pass1_inv {src : List Char} {p : Pass1Out} (h : pass1 src = .ok p) :
    p.nodes.length ≤ 99 ∧ ∀ n ∈ p.nodes, nodeOk n ∧ n.op.isSome := by
  unfold pass1 at h
  split at h
  · cases h
  · rename_i st hst
    split at h
    · cases h
    · cases h
      obtain ⟨h1, h2, h3, _⟩ := pass1Go_inv initSt_inv hst
      refine ⟨?_, h3⟩
      dsimp only
      omega

/-- Pass 2 never writes at or beyond `addr +` the number of remaining nodes:
positions there keep their initial contents. -/
theorem pass2Go_getElem_ge {labels : List (Option Token)} {nodes : List IrNode}
    {addr : Nat} {img0 img : List Int}
    (h : pass2Go labels nodes addr img0 = .ok img) {i : Nat}
    (hi : addr + nodes.length ≤ i) : img[i]? = img0[i]? := by
  induction nodes generalizing addr img0 with
  | nil =>
    obtain rfl := Except.ok.inj h
    rfl
  | cons n rest ih =>
    unfold pass2Go at h
    cases hop : n.op with
    | none =>
      simp only [hop] at h
      obtain rfl := Except.ok.inj h
      rfl
    | some opv =>
      simp only [hop] at h
      cases hnv : nodeValue labels n opv with
      | error e =>
        simp only [hnv] at h
        exact Except.noConfusion h
      | ok v =>
        simp only [hnv] at h
        have hrest : (addr + 1) + rest.length ≤ i := by
          simp only [List.length_cons] at hi
          omega
        rw [ih h hrest]
        exact List.getElem?_set_ne (by omega)

/-- Pass 2 never writes below `addr`: positions there keep their initial
contents. -/
theorem pass2Go_getElem_lt {labels : List (Option Token)} {nodes : List IrNode}
    {addr : Nat} {img0 img : List Int}
    (h : pass2Go labels nodes addr img0 = .ok img) {i : Nat}
    (hi : i < addr) : img[i]? = img0[i]? := by
  induction nodes generalizing addr img0 with
  | nil =>
    obtain rfl := Except.ok.inj h
    rfl
  | cons n rest ih =>
    unfold pass2Go at h
    cases hop : n.op with
    | none =>
      simp only [hop] at h
      obtain rfl := Except.ok.inj h
      rfl
    | some opv =>
      simp only [hop] at h
      cases hnv : nodeValue labels n opv with
      | error e =>
        simp only [hnv] at h
        exact Except.noConfusion h
      | ok v =>
        simp only [hnv] at h
        rw [ih h (by omega)]
        exact List.getElem?_set_ne (by omega)

/-- The partially-cleared pool keeps 100 words. -/
theorem memset50_length {init : List Int} (h : init.length = 100) :
    (memset50 init).length = 100 := by
  unfold memset50
  simp [h]

/-- The `memset` clears the first 50 words. -/
theorem memset50_getElem_lt {init : List Int} {i : Nat} (hi : i < 50) :
    (memset50 init)[i]? = some 0 := by
  unfold memset50
  rw [List.getElem?_append_left (by simpa using hi)]
  exact List.getElem?_replicate_of_lt hi

/-- From word 50 on, the pool keeps its pre-`memset` contents: only 100
bytes of the 200-byte `short[100]` array are cleared. -/
theorem memset50_getElem_ge {init : List Int} {i : Nat} (hi : 50 ≤ i) :
    (memset50 init)[i]? = init[i]? := by
  unfold memset50
  rw [List.getElem?_append_right (by simpa using hi)]
  simp only [List.length_replicate, List.getElem?_drop]
  congr 1
  omega

/-- Claim C5: refuted.  `memset(mailboxes->pool, 0, NUM_MAILBOXES)` counts
bytes, so it clears only the first 50 of the 100 `short` mailboxes; the
one-record program `HLT` assembled over a pool whose mailbox 99 held 777
leaves 777 there, not the claimed 0.  In general, a successful assembly
with `n` records zeroes only positions in `[n, 50)`; positions from 50 on
keep whatever the pool held before `lmc_assemble` ran. -/
theorem C5_memset_bug :
    (getWord (assemble junkPool hltSrc) 99 = some 777 ∧ ¬ (777 : Int) = 0)
    ∧ ∀ init src p img, pass1 src = Except.ok p →
        pass2 init p = Except.ok img →
        ∀ i, p.nodes.length ≤ i →
          (i < 50 → img[i]? = some 0) ∧ (50 ≤ i → img[i]? = init[i]?) := by
  refine ⟨⟨by rfl, by decide⟩, ?_⟩
  intro init src p img _ h2 i hge
  unfold pass2 at h2
  constructor
  · intro hi
    rw [pass2Go_getElem_ge h2 (by omega)]
    exact memset50_getElem_lt hi
  · intro hi
    rw [pass2Go_getElem_ge h2 (by omega)]
    exact memset50_getElem_ge hi

/-- Witness for C5: the program `HLT` over the junk pool, at position 99. -/
theorem C5_witness :
    pass1 hltSrc = Except.ok pHlt
      ∧ pass2 junkPool pHlt = Except.ok junkPool
      ∧ pHlt.nodes.length ≤ 99
      ∧ ((99 < 50 → junkPool[99]? = some 0)
         ∧ (50 ≤ 99 → junkPool[99]? = junkPool[99]?)) :=
  ⟨by rfl, by rfl, by decide,
   C5_memset_bug.2 junkPool hltSrc pHlt junkPool (by rfl) (by rfl) 99
     (by decide)⟩

/-- Every matched label address lies below 100. -/
theorem labelMatches_lt {labels : List (Option Token)} {tok : Token} :
    ∀ i ∈ labelMatches labels tok, i < 100 := by
  intro i hi
  unfold labelMatches at hi
  have hmem := (List.mem_filter.mp hi).1
  simpa [List.mem_range] using hmem

/-- A word packed from a well-formed node whose symbolic operand (if any)
matches at most one address lies in `0..999`. -/
theorem nodeValue_range {labels : List (Option Token)} {n : IrNode} {opv : Nat}
    {v : Int} (hok : nodeOk n) (hop : n.op = some opv)
    (huniq : ∀ t, n.label_offset = some t → (labelMatches labels t).length ≤ 1)
    (h : nodeValue labels n opv = .ok v) : 0 ≤ v ∧ v ≤ 999 := by
  have hopv : opv ≤ 9 := hok.1 opv hop
  unfold nodeValue at h
  cases hlo : n.label_offset with
  | some tok =>
    simp only [hlo] at h
    split at h
    · exact Except.noConfusion h
    · rename_i hne
      obtain rfl := Except.ok.inj h
      have hlen := huniq tok hlo
      have hlt := @labelMatches_lt labels tok
      obtain ⟨i, hms⟩ : ∃ i, labelMatches labels tok = [i] := by
        match hms2 : labelMatches labels tok with
        | [] => rw [hms2] at hne; simp at hne
        | [i] => exact ⟨i, rfl⟩
        | a :: b :: t => rw [hms2] at hlen; simp at hlen
      have hi : i < 100 := hlt i (by rw [hms]; exact List.mem_singleton_self i)
      rw [hms]
      have hsum : (List.map (Nat.cast : Nat → Int) [i]).sum = (i : Int) := by
        simp
      rw [hsum]
      constructor <;> omega
  | none =>
    simp only [hlo] at h
    obtain rfl := Except.ok.inj h
    rcases hok.2 with hoff | ⟨hoff0, hoff99⟩
    · rw [if_neg (by rw [hoff]; simp)]
      constructor <;> omega
    · rw [if_pos (by omega)]
      have htm : Int.tmod n.offset 100 = n.offset % 100 :=
        Int.tmod_eq_emod (by omega) (by omega)
      rw [htm]
      constructor <;> omega

/-- Every image position covered by the records holds a word in `0..999`
after a successful pass 2, when each written node is well-formed, carries
an opcode, and its symbolic operand matches at most one address. -/
theorem pass2Go_written_range {labels : List (Option Token)}
    {nodes : List IrNode} {addr : Nat} {img0 img : List Int}
    (hnodes : ∀ n ∈ nodes, nodeOk n ∧ n.op.isSome)
    (huniq : ∀ n ∈ nodes, ∀ t, n.label_offset = some t →
      (labelMatches labels t).length ≤ 1)
    (h : pass2Go labels nodes addr img0 = .ok img) :
    ∀ i, addr ≤ i → i < addr + nodes.length →
      ∀ w, img[i]? = some w → 0 ≤ w ∧ w ≤ 999 := by
  induction nodes generalizing addr img0 with
  | nil =>
    intro i h1 h2 w _
    simp only [List.length_nil] at h2
    omega
  | cons n rest ih =>
    unfold pass2Go at h
    obtain ⟨opv, hop⟩ :=
      Option.isSome_iff_exists.mp (hnodes n (List.mem_cons_self n rest)).2
    simp only [hop] at h
    cases hnv : nodeValue labels n opv with
    | error e =>
      simp only [hnv] at h
      exact Except.noConfusion h
    | ok v =>
      simp only [hnv] at h
      intro i h1 h2 w hw
      by_cases hieq : i = addr
      · subst hieq
        rw [pass2Go_getElem_lt h (by omega)] at hw
        by_cases haddr : i < img0.length
        · rw [List.getElem?_set_self haddr] at hw
          obtain rfl := Option.some.inj hw
          exact nodeValue_range (hnodes n (List.mem_cons_self n rest)).1 hop
            (huniq n (List.mem_cons_self n rest)) hnv
        · have hnone : (img0.set i v)[i]? = none := by
            rw [List.getElem?_eq_none_iff]
            simp only [List.length_set]
            omega
          rw [hnone] at hw
          exact Option.noConfusion hw
      · refine ih (fun x hx => hnodes x (List.mem_cons_of_mem n hx))
          (fun x hx => huniq x (List.mem_cons_of_mem n hx)) h i (by omega)
          ?_ w hw
        simp only [List.length_cons] at h2
        omega

/-- Claim C6 (amended): every image word the assembler actually writes —
the words at positions below the record count — lies in `0..999`, provided
each symbolic operand's label text matches at most one address (the normal
path); the defensive multi-match fallback sums all matching addresses and
can leave a written word above 999 (see the counterexample).  Positions at
or past the record count merely keep the partially-cleared pool's
contents (see C5). -/
theorem C6_word_range :
    ∀ init src p img, pass1 src = Except.ok p →
      (∀ n ∈ p.nodes, ∀ t, n.label_offset = some t →
        (labelMatches p.labels t).length ≤ 1) →
      pass2 init p = Except.ok img →
      ∀ i, i < p.nodes.length → ∀ w, img[i]? = some w → 0 ≤ w ∧ w ≤ 999 := by
  intro init src p img h1 huniq h2 i hi w hw
  have hn := (pass1_inv h1).2
  unfold pass2 at h2
  exact pass2Go_written_range hn huniq h2 i (Nat.zero_le i) (by omega) w hw

/-- Witness for C6: the single-instruction program `HLT` has unique label
matches and its written image word 0 lies in range. -/
theorem C6_witness :
    pass1 hltSrc = Except.ok pHlt
      ∧ pass2 zeroPool pHlt = Except.ok (List.replicate 100 0)
      ∧ 0 < pHlt.nodes.length
      ∧ (List.replicate 100 (0 : Int))[0]? = some 0
      ∧ 0 ≤ (0 : Int) ∧ (0 : Int) ≤ 999 :=
  ⟨rfl, by rfl, by decide, by rfl,
   C6_word_range zeroPool hltSrc pHlt (List.replicate 100 0) rfl
     (by
       intro n hn t ht
       simp only [pHlt, List.mem_singleton] at hn
       subst hn
       simp [hltNode] at ht)
     (by rfl) 0 (by decide) 0 (by rfl)⟩

/-- If some node's symbolic operand is unresolved, `firstUnresolved` finds
one. -/
theorem firstUnresolved_isSome {labels : List (Option Token)}
    {nodes : List IrNode} {n : IrNode} {t : Token} (hn : n ∈ nodes)
    (ht : n.label_offset = some t) (hm : labelMatches labels t = []) :
    (firstUnresolved labels nodes).isSome := by
  induction nodes with
  | nil => cases hn
  | cons n' rest ih =>
    unfold firstUnresolved
    rcases List.mem_cons.mp hn with rfl | hn'
    · simp only [ht]
      rw [if_pos (by rw [hm]; rfl)]
      rfl
    · cases hlo : n'.label_offset with
      | some t2 =>
        simp only [hlo]
        split
        · rfl
        · exact ih hn'
      | none =>
        simp only [hlo]
        exact ih hn'

/-- When every remaining node carries an opcode and `firstUnresolved` finds
a token, pass 2 fails with exactly that token. -/
theorem pass2Go_firstUnresolved {labels : List (Option Token)}
    {nodes : List IrNode} {addr : Nat} {img : List Int} {t' : Token}
    (hops : ∀ n ∈ nodes, n.op.isSome)
    (hfu : firstUnresolved labels nodes = some t') :
    pass2Go labels nodes addr img = .error (.unknownToken t') := by
  induction nodes generalizing addr img with
  | nil => simp [firstUnresolved] at hfu
  | cons n rest ih =>
    obtain ⟨opv, hop⟩ :=
      Option.isSome_iff_exists.mp (hops n (List.mem_cons_self n rest))
    unfold firstUnresolved at hfu
    unfold pass2Go
    simp only [hop]
    cases hlo : n.label_offset with
    | some tok =>
      simp only [hlo] at hfu
      by_cases hms : (labelMatches labels tok).isEmpty = true
      · rw [if_pos hms] at hfu
        obtain rfl := Option.some.inj hfu
        have hnv : nodeValue labels n opv = .error (.unknownToken tok) := by
          unfold nodeValue
          simp only [hlo]
          rw [if_pos hms]
        simp only [hnv]
      · rw [if_neg hms] at hfu
        have hnv : nodeValue labels n opv = .ok ((opv : Int) * 100
            + (((labelMatches labels tok).map (Nat.cast : Nat → Int)).sum)) := by
          unfold nodeValue
          simp only [hlo]
          rw [if_neg hms]
        simp only [hnv]
        exact ih (fun x hx => hops x (List.mem_cons_of_mem n hx)) hfu
    | none =>
      simp only [hlo] at hfu
      have hnv : nodeValue labels n opv = .ok ((opv : Int) * 100
          + (if n.offset ≠ -1 then Int.tmod n.offset 100 else 0)) := by
        unfold nodeValue
        simp only [hlo]
      simp only [hnv]
      exact ih (fun x hx => hops x (List.mem_cons_of_mem n hx)) hfu

/-- Claim C8: whatever the pool held beforehand, assembling
`LDA missing\nHLT` fails citing the token `missing` at line 1, column 5;
in general, whenever some symbolic operand's label text is defined at no
address, `firstUnresolved` yields a token and assembly fails with an
unknown-token error naming it (so no image is produced). -/
theorem C8_undefined_label :
    ((∀ init, assemble init srcC8 = Except.error (AsmErr.unknownToken missingTok))
      ∧ renderErr (AsmErr.unknownToken missingTok)
          = "Unknown token on line 1:5: missing")
    ∧ (∀ src p n t, pass1 src = Except.ok p → n ∈ p.nodes →
        n.label_offset = some t → labelMatches p.labels t = [] →
        (firstUnresolved p.labels p.nodes).isSome)
    ∧ (∀ init src p t', pass1 src = Except.ok p →
        firstUnresolved p.labels p.nodes = some t' →
        assemble init src = Except.error (AsmErr.unknownToken t')) := by
  refine ⟨⟨fun init => by rfl, by rfl⟩, ?_, ?_⟩
  · intro src p n t _ hn ht hm
    exact firstUnresolved_isSome hn ht hm
  · intro init src p t' h1 hfu
    have hops := fun n hn => ((pass1_inv h1).2 n hn).2
    unfold assemble
    simp only [h1]
    unfold pass2
    exact pass2Go_firstUnresolved hops hfu

/-- Witness for C8: applying the general statement to `srcC8` over the
junk pool. -/
theorem C8_witness :
    pass1 srcC8 = Except.ok pC8
      ∧ firstUnresolved pC8.labels pC8.nodes = some missingTok
      ∧ assemble junkPool srcC8 = Except.error (AsmErr.unknownToken missingTok) :=
  ⟨by rfl, by rfl,
   C8_undefined_label.2.2 junkPool srcC8 pC8 missingTok (by rfl) (by rfl)⟩

/-- `processToken` never touches the comment flag. -/
theorem processToken_is_comment {st st' : St} (h : processToken st = .ok st') :
    st'.is_comment = st.is_comment := by
  unfold processToken at h
  cases hstart : st.start with
  | none =>
    simp only [hstart] at h
    obtain rfl := Except.ok.inj h
    rfl
  | some tok =>
    simp only [hstart] at h
    cases hfind : (if c_isalpha (firstChar tok.text) && st.cur.op.isNone
          && tok.text.length == 3
        then findOpcode tok.text else none) with
    | some opIdx =>
      simp only [hfind] at h
      obtain rfl := Except.ok.inj h
      rfl
    | none =>
      simp only [hfind] at h
      split at h
      · obtain rfl := Except.ok.inj h; rfl
      · split at h
        · split at h <;> (obtain rfl := Except.ok.inj h; rfl)
        · exact Except.noConfusion h

/-- `closeRecord` never touches the comment flag. -/
theorem closeRecord_is_comment {st st' : St} (h : closeRecord st = .ok st') :
    st'.is_comment = st.is_comment := by
  unfold closeRecord at h
  cases hop : st.cur.op with
  | none =>
    simp only [hop] at h
    cases hlab : st.cur.label with
    | none =>
      simp only [hlab] at h
      obtain rfl := Except.ok.inj h
      rfl
    | some l =>
      simp only [hlab] at h
      exact Except.noConfusion h
  | some v =>
    simp only [hop] at h
    split at h
    · exact Except.noConfusion h
    · obtain rfl := Except.ok.inj h; rfl

/-- Inside a comment, every character other than a newline is skipped
without changing the state (lines 110–115 of `lmc.c`: only `offset`
advances, and `column` is not incremented). -/
theorem step1_comment {st : St} {c : Char} {last : Bool}
    (hcom : st.is_comment = true) (hc : c ≠ '\n') : step1 st c last = .ok st := by
  unfold step1
  rw [if_pos hcom, if_neg hc]

/-- Processing a `';'` always leaves the comment flag set. -/
theorem step1_semicolon {st st' : St} {last : Bool}
    (h : step1 st ';' last = .ok st') : st'.is_comment = true := by
  by_cases hcom : st.is_comment = true
  · rw [step1_comment hcom (by decide)] at h
    obtain rfl := Except.ok.inj h
    exact hcom
  · unfold step1 at h
    rw [if_neg hcom] at h
    dsimp only at h
    rw [if_pos rfl] at h
    split at h
    · obtain rfl := Except.ok.inj h
      rfl
    · rename_i hsil
      have h2 : (if (!program_isspace ';') = true
            then extendStart { st with is_comment := true } ';'
            else { st with is_comment := true }) = { st with is_comment := true } := by
        rw [if_neg (by decide)]
      rw [h2] at h
      split at h
      · cases hpt : processToken { st with is_comment := true } with
        | error e =>
          rw [hpt] at h
          exact Except.noConfusion h
        | ok st3 =>
          simp only [hpt] at h
          have e3 : st3.is_comment = true := processToken_is_comment hpt
          cases hcr : (if (program_eol ';' || last) = true then closeRecord st3
              else Except.ok st3) with
          | error e =>
            simp only [hcr] at h
            exact Except.noConfusion h
          | ok st4 =>
            simp only [hcr] at h
            rw [if_pos (by simp [program_eol])] at hcr
            have e4 : st4.is_comment = st3.is_comment := closeRecord_is_comment hcr
            obtain rfl := Except.ok.inj h
            dsimp only
            rw [e4, e3]
      · rename_i hnospace
        exact absurd (by simp [program_isspace]) hnospace

/-- Evaluation of the pass-1 loop on one more character. -/
theorem pass1Go_cons (st : St) (c : Char) (rest : List Char) :
    pass1Go st (c :: rest) = match step1 st c rest.isEmpty with
      | .error e => .error e
      | .ok st' => pass1Go st' rest := rfl

/-- Evaluation of the non-final pass-1 loop on one more character. -/
theorem pass1GoMid_cons (st : St) (c : Char) (rest : List Char) :
    pass1GoMid st (c :: rest) = match step1 st c false with
      | .error e => .error e
      | .ok st' => pass1GoMid st' rest := rfl

/-- From a comment state, a run of non-newline characters is consumed
without any effect. -/
theorem pass1Go_comment_skip {st : St} (hcom : st.is_comment = true) :
    ∀ (cs tail : List Char), (∀ ch ∈ cs, ch ≠ '\n') →
      pass1Go st (cs ++ tail) = pass1Go st tail := by
  intro cs
  induction cs with
  | nil => intro tail _; rfl
  | cons c rest ih =>
    intro tail hc
    rw [List.cons_append, pass1Go_cons,
        step1_comment hcom (hc c (List.mem_cons_self c rest))]
    exact ih tail (fun ch hch => hc ch (List.mem_cons_of_mem c hch))

/-- The pass-1 loop over `xs ++ ys` with `ys` nonempty: consume `xs` with
the final-character flag off, then continue with `ys`. -/
theorem pass1Go_append (xs ys : List Char) (hys : ys ≠ []) :
    ∀ st : St, pass1Go st (xs ++ ys)
      = match pass1GoMid st xs with
        | .error e => .error e
        | .ok st' => pass1Go st' ys := by
  induction xs with
  | nil => intro st; rfl
  | cons c rest ih =>
    intro st
    have hne : (rest ++ ys).isEmpty = false := by
      cases hra : rest ++ ys with
      | nil => exact absurd (List.append_eq_nil.mp hra).2 hys
      | cons a l => rfl
    rw [List.cons_append, pass1Go_cons, pass1GoMid_cons, hne]
    cases h1 : step1 st c false with
    | error e => rfl
    | ok st1 => exact ih st1

/-- Peeling the final character off `pass1GoMid`. -/
theorem pass1GoMid_snoc (xs : List Char) (c : Char) :
    ∀ st : St, pass1GoMid st (xs ++ [c])
      = match pass1GoMid st xs with
        | .error e => .error e
        | .ok st' => step1 st' c false := by
  induction xs with
  | nil =>
    intro st
    rw [List.nil_append, pass1GoMid_cons,
        show pass1GoMid st ([] : List Char) = Except.ok st from rfl]
    show (match step1 st c false with
      | Except.error e => Except.error e
      | Except.ok st' => pass1GoMid st' []) = step1 st c false
    cases h1 : step1 st c false with
    | error e => rfl
    | ok st1 => rfl
  | cons a rest ih =>
    intro st
    rw [List.cons_append, pass1GoMid_cons, pass1GoMid_cons]
    cases h1 : step1 st a false with
    | error e => rfl
    | ok st1 => exact ih st1

/-- Claim C9: over any pool state, `ADD five ; add five\nfive DAT 5\nHLT`
assembles to the same image as the comment-free variant, and in general
replacing the text of a line comment (any newline-free characters after a
`';'`) never changes the result of assembly. -/
theorem C9_comments :
    (assemble zeroPool srcC9a = Except.ok imgC9
      ∧ assemble zeroPool srcC9b = Except.ok imgC9)
    ∧ ∀ (init : List Int) (p c c' r : List Char),
        (∀ ch ∈ c, ch ≠ '\n') → (∀ ch ∈ c', ch ≠ '\n') →
        assemble init (p ++ ';' :: (c ++ '\n' :: r))
          = assemble init (p ++ ';' :: (c' ++ '\n' :: r)) := by
  refine ⟨⟨by rfl, by rfl⟩, ?_⟩
  intro init p c c' r hc hc'
  have key : ∀ (cs : List Char), (∀ ch ∈ cs, ch ≠ '\n') →
      pass1Go initSt (p ++ ';' :: (cs ++ '\n' :: r))
        = pass1Go initSt (p ++ ';' :: ('\n' :: r)) := by
    intro cs hcs
    have h1 : p ++ ';' :: (cs ++ '\n' :: r) = (p ++ [';']) ++ (cs ++ '\n' :: r) := by
      simp
    have h2 : p ++ ';' :: ('\n' :: r) = (p ++ [';']) ++ ('\n' :: r) := by
      simp
    rw [h1, h2, pass1Go_append (p ++ [';']) (cs ++ '\n' :: r) (by simp) initSt,
        pass1Go_append (p ++ [';']) ('\n' :: r) (by simp) initSt]
    cases hmid : pass1GoMid initSt (p ++ [';']) with
    | error e => rfl
    | ok stMid =>
      have hcom : stMid.is_comment = true := by
        rw [pass1GoMid_snoc p ';' initSt] at hmid
        cases hmid0 : pass1GoMid initSt p with
        | error e =>
          rw [hmid0] at hmid
          exact Except.noConfusion hmid
        | ok st0 =>
          rw [hmid0] at hmid
          exact step1_semicolon hmid
      exact pass1Go_comment_skip hcom cs ('\n' :: r) hcs
  unfold assemble pass1
  rw [key c hc, key c' hc']

/-- Witness for C9: replacing the comment body `a` by the empty comment in
`;a\n` does not change the assembly result over the junk pool. -/
theorem C9_witness :
    assemble junkPool ([] ++ ';' :: (['a'] ++ '\n' :: []))
      = assemble junkPool ([] ++ ';' :: ([] ++ '\n' :: [])) :=
  C9_comments.2 junkPool [] ['a'] [] []
    (by intro ch hch; rcases List.mem_singleton.mp hch with rfl; decide)
    (by intro ch hch; cases hch)

/-- Claim C1, counterexample: the fetched word 900 (opcode digit 9, operand
0) does not fault; it decodes to instruction code 8 (BRP) and, with the
negative flag clear, branches to mailbox 0, leaving the machine running in
its original state. -/
theorem C1_counterexample : step m900 = StepResult.running m900 ∧ decodeIr 900 = 8 :=
  ⟨rfl, rfl⟩

/-- Claim C2, evaluation at the failing input: executing `SUB 01` (word 201)
with accumulator 0 and mailbox 1 holding 5 leaves `-5` in the accumulator —
C's truncating `%` does not wrap into `[0, 999]`. -/
theorem C2_bug_eval :
    step m201 = StepResult.running m201Post ∧ m201Post.acc = -5 ∧ m201Post.acc < 0 :=
  ⟨rfl, rfl, by decide⟩

/-- Claim C4, counterexample: executing `INP` (word 901) on input line `-5`
sets the negative flag even though no SUB instruction was executed —
the flag is not set only by subtraction underflow (901 decodes to 9 = INP,
not 2 = SUB). -/
theorem C4_counterexample :
    step mInp = StepResult.running mInpPost ∧ mInpPost.negative = true
      ∧ decodeIr 901 = 9 :=
  ⟨rfl, rfl, rfl⟩

/-- For a nonnegative word, C truncating division and remainder by 100 agree
with Euclidean division and remainder. -/
theorem tdiv_tmod_of_nonneg {d : Int} (hd : 0 ≤ d) :
    d.tdiv 100 = d / 100 ∧ d.tmod 100 = d % 100 :=
  ⟨Int.tdiv_eq_ediv hd (by omega), Int.tmod_eq_emod hd (by omega)⟩

/-- Decode and address register of a nonnegative fetched word: truncating
operations become Euclidean ones, and `ar` is just `data % 100`. -/
theorem decodeIr_arOf_nonneg {d : Int} (hd : 0 ≤ d) :
    decodeIr d = d / 100 + (if d / 100 = 9 then d % 100 - 1 else 0)
      ∧ arOf d = d % 100 := by
  obtain ⟨h1, h2⟩ := tdiv_tmod_of_nonneg hd
  constructor
  · unfold decodeIr
    rw [h1, h2]
  · unfold arOf
    rw [h2]
    have ha : 0 ≤ d % 100 := Int.emod_nonneg d (by omega)
    have hb : d % 100 < 100 := Int.emod_lt_of_pos d (by omega)
    omega

/-- A negative fetched word decodes to a nonpositive instruction code (so it
can only halt or fault). -/
theorem decodeIr_neg {d : Int} (hd : d < 0) : decodeIr d ≤ 0 := by
  unfold decodeIr
  cases d with
  | ofNat n => exact absurd hd (by simp only [Int.ofNat_eq_coe]; omega)
  | negSucc m =>
    have h1 : (Int.negSucc m).tdiv 100 = -Int.ofNat (m.succ / 100) := rfl
    rw [h1, Int.ofNat_eq_coe]
    rw [if_neg (by omega)]
    omega

/-- If the decoded instruction code is positive, the fetched word was
nonnegative. -/
theorem decodeIr_pos_imp_nonneg {d : Int} (h : 1 ≤ decodeIr d) : 0 ≤ d := by
  by_contra hneg
  have := decodeIr_neg (d := d) (by omega)
  omega

/-- The address register of a nonnegative word addresses a valid mailbox. -/
theorem arOf_toNat_lt {d : Int} (hd : 0 ≤ d) : (arOf d).toNat < 100 := by
  have h2 := (decodeIr_arOf_nonneg hd).2
  have ha : 0 ≤ d % 100 := Int.emod_nonneg d (by omega)
  have hb : d % 100 < 100 := Int.emod_lt_of_pos d (by omega)
  rw [h2, Int.toNat_lt (by omega)]
  omega

/-- A decoded instruction code equal to `k` differs from any other code. -/
theorem decodeIr_ne {d k j : Int} (h : decodeIr d = k) (hkj : k ≠ j) :
    ¬ decodeIr d = j := by
  rw [h]
  exact hkj

/-- Claim C1 (amended): a word with opcode digit 9 decodes to instruction
code `8 + operand`: operand 1 is INP (9) and operand 2 is OUT (10), but
operand 0 decodes to 8 — BRP — and executes a branch, while every operand
`≥ 3` produces a code `≥ 11` that falls into the unknown-opcode fault. -/
theorem C1_digit9 :
    ∀ d : Int, 900 ≤ d → d ≤ 999 →
      decodeIr d = 8 + (d - 900)
        ∧ (decodeIr d = 9 ↔ d = 901) ∧ (decodeIr d = 10 ↔ d = 902)
        ∧ (decodeIr d = 8 ↔ d = 900)
        ∧ (903 ≤ d → ∀ m : Machine, m.pool[m.pc]? = some d →
            step m = StepResult.fault (decodeIr d)
              { m with pc := (m.pc + 1) % 100 }) := by
  intro d h9 h99
  obtain ⟨hdec, har⟩ := decodeIr_arOf_nonneg (d := d) (by omega)
  have hdiv : d / 100 = 9 := by omega
  have hval : decodeIr d = 8 + (d - 900) := by
    rw [hdec, if_pos hdiv, hdiv]
    omega
  refine ⟨hval, by omega, by omega, by omega, ?_⟩
  intro h903 m hm
  unfold step
  simp only [hm]
  rw [if_neg (decodeIr_ne hval (by omega)), if_neg (decodeIr_ne hval (by omega)),
      if_neg (decodeIr_ne hval (by omega)), if_neg (decodeIr_ne hval (by omega)),
      if_neg (decodeIr_ne hval (by omega)), if_neg (decodeIr_ne hval (by omega)),
      if_neg (decodeIr_ne hval (by omega)), if_neg (decodeIr_ne hval (by omega)),
      if_neg (decodeIr_ne hval (by omega)), if_neg (decodeIr_ne hval (by omega))]

/-- Witness for C1: word 903 at the program counter faults with code 11. -/
theorem C1_witness :
    step m903 = StepResult.fault 11 { m903 with pc := 1 } :=
  ((C1_digit9 903 (by omega) (by omega)).2.2.2.2 (by omega) m903 rfl).trans
    (by rfl)

/-- Executing `HLT` (code 0). -/
theorem step_eq_hlt {m : Machine} {d : Int} (hm : m.pool[m.pc]? = some d)
    (hir : decodeIr d = 0) :
    step m = .halted { m with pc := (m.pc + 1) % 100 } := by
  unfold step
  simp only [hm]
  rw [if_pos hir]

/-- Executing `ADD` (code 1). -/
theorem step_eq_add {m : Machine} {d : Int} (hm : m.pool[m.pc]? = some d)
    (hir : decodeIr d = 1) {v : Int} (hv : m.pool[(arOf d).toNat]? = some v) :
    step m = .running { m with pc := (m.pc + 1) % 100,
                               negative := false,
                               acc := Int.tmod (m.acc + v) 1000 } := by
  unfold step
  simp only [hm]
  rw [if_neg (decodeIr_ne hir (by norm_num)), if_pos hir]
  simp only [hv]

/-- Executing `SUB` (code 2): the negative flag records the pre-subtraction
comparison. -/
theorem step_eq_sub {m : Machine} {d : Int} (hm : m.pool[m.pc]? = some d)
    (hir : decodeIr d = 2) {v : Int} (hv : m.pool[(arOf d).toNat]? = some v) :
    step m = .running { m with pc := (m.pc + 1) % 100,
                               negative := decide (m.acc < v),
                               acc := Int.tmod (m.acc - v) 1000 } := by
  unfold step
  simp only [hm]
  rw [if_neg (decodeIr_ne hir (by norm_num)),
      if_neg (decodeIr_ne hir (by norm_num)), if_pos hir]
  simp only [hv]

/-- Executing `STA` (code 3). -/
theorem step_eq_sta {m : Machine} {d : Int} (hm : m.pool[m.pc]? = some d)
    (hir : decodeIr d = 3) (harlt : (arOf d).toNat < m.pool.length) :
    step m = .running { m with pc := (m.pc + 1) % 100,
                               pool := m.pool.set (arOf d).toNat m.acc } := by
  unfold step
  simp only [hm]
  rw [if_neg (decodeIr_ne hir (by norm_num)),
      if_neg (decodeIr_ne hir (by norm_num)),
      if_neg (decodeIr_ne hir (by norm_num)), if_pos hir, if_pos harlt]

/-- Executing `LDA` (code 5). -/
theorem step_eq_lda {m : Machine} {d : Int} (hm : m.pool[m.pc]? = some d)
    (hir : decodeIr d = 5) {v : Int} (hv : m.pool[(arOf d).toNat]? = some v) :
    step m = .running { m with pc := (m.pc + 1) % 100,
                               negative := false,
                               acc := v } := by
  unfold step
  simp only [hm]
  rw [if_neg (decodeIr_ne hir (by norm_num)),
      if_neg (decodeIr_ne hir (by norm_num)),
      if_neg (decodeIr_ne hir (by norm_num)),
      if_neg (decodeIr_ne hir (by norm_num)), if_pos hir]
  simp only [hv]

/-- Executing `BRA` (code 6). -/
theorem step_eq_bra {m : Machine} {d : Int} (hm : m.pool[m.pc]? = some d)
    (hir : decodeIr d = 6) :
    step m = .running { m with pc := (arOf d).toNat } := by
  unfold step
  simp only [hm]
  rw [if_neg (decodeIr_ne hir (by norm_num)),
      if_neg (decodeIr_ne hir (by norm_num)),
      if_neg (decodeIr_ne hir (by norm_num)),
      if_neg (decodeIr_ne hir (by norm_num)),
      if_neg (decodeIr_ne hir (by norm_num)), if_pos hir]

/-- Executing `BRZ` (code 7). -/
theorem step_eq_brz {m : Machine} {d : Int} (hm : m.pool[m.pc]? = some d)
    (hir : decodeIr d = 7) :
    step m = .running { m with pc := if m.acc = 0 then (arOf d).toNat
                                     else (m.pc + 1) % 100 } := by
  unfold step
  simp only [hm]
  rw [if_neg (decodeIr_ne hir (by norm_num)),
      if_neg (decodeIr_ne hir (by norm_num)),
      if_neg (decodeIr_ne hir (by norm_num)),
      if_neg (decodeIr_ne hir (by norm_num)),
      if_neg (decodeIr_ne hir (by norm_num)),
      if_neg (decodeIr_ne hir (by norm_num)), if_pos hir]

/-- Executing `BRP` (code 8): gated by the flag alone. -/
theorem step_eq_brp {m : Machine} {d : Int} (hm : m.pool[m.pc]? = some d)
    (hir : decodeIr d = 8) :
    step m = .running { m with pc := if m.negative then (m.pc + 1) % 100
                                     else (arOf d).toNat } := by
  unfold step
  simp only [hm]
  rw [if_neg (decodeIr_ne hir (by norm_num)),
      if_neg (decodeIr_ne hir (by norm_num)),
      if_neg (decodeIr_ne hir (by norm_num)),
      if_neg (decodeIr_ne hir (by norm_num)),
      if_neg (decodeIr_ne hir (by norm_num)),
      if_neg (decodeIr_ne hir (by norm_num)),
      if_neg (decodeIr_ne hir (by norm_num)), if_pos hir]

/-- Executing `INP` (code 9) with input available. -/
theorem step_eq_inp {m : Machine} {d : Int} (hm : m.pool[m.pc]? = some d)
    (hir : decodeIr d = 9) {b : Char} {bs rest : List Char}
    (hfg : fgets4 m.input = (b :: bs, rest)) :
    step m = .running { m with pc := (m.pc + 1) % 100,
                               negative := (b == '-'),
                               acc := if (b == '-') = true then atoiChars bs
                                      else atoiChars (b :: bs),
                               input := rest } := by
  unfold step
  simp only [hm]
  rw [if_neg (decodeIr_ne hir (by norm_num)),
      if_neg (decodeIr_ne hir (by norm_num)),
      if_neg (decodeIr_ne hir (by norm_num)),
      if_neg (decodeIr_ne hir (by norm_num)),
      if_neg (decodeIr_ne hir (by norm_num)),
      if_neg (decodeIr_ne hir (by norm_num)),
      if_neg (decodeIr_ne hir (by norm_num)),
      if_neg (decodeIr_ne hir (by norm_num)), if_pos hir]
  simp only [hfg]

/-- Executing `OUT` (code 10). -/
theorem step_eq_out {m : Machine} {d : Int} (hm : m.pool[m.pc]? = some d)
    (hir : decodeIr d = 10) :
    step m = .running { m with pc := (m.pc + 1) % 100,
                               output := m.output ++ [toString m.acc] } := by
  unfold step
  simp only [hm]
  rw [if_neg (decodeIr_ne hir (by norm_num)),
      if_neg (decodeIr_ne hir (by norm_num)),
      if_neg (decodeIr_ne hir (by norm_num)),
      if_neg (decodeIr_ne hir (by norm_num)),
      if_neg (decodeIr_ne hir (by norm_num)),
      if_neg (decodeIr_ne hir (by norm_num)),
      if_neg (decodeIr_ne hir (by norm_num)),
      if_neg (decodeIr_ne hir (by norm_num)),
      if_neg (decodeIr_ne hir (by norm_num)), if_pos hir]

/-- One fueled iteration on a running step. -/
theorem run_succ_running {fuel : Nat} {m m' : Machine}
    (h : step m = .running m') : run (fuel + 1) m = run fuel m' := by
  simp only [run]
  rw [h]

/-- One fueled iteration on a halting step. -/
theorem run_succ_halted {fuel : Nat} {m m' : Machine}
    (h : step m = .halted m') : run (fuel + 1) m = .halted m' := by
  simp only [run]
  rw [h]

/-- Claim C4 (amended): per-instruction effect on the negative flag.  SUB
sets it exactly when the source mailbox value exceeds the pre-subtraction
accumulator; ADD and LDA clear it; INP sets or clears it according to the
leading `-` of the input line; BRP branches exactly when the flag is false,
regardless of the accumulator, and leaves the whole state (flag included)
unchanged apart from the program counter; STA, BRA, BRZ, OUT and HLT never
touch the flag. -/
theorem C4_negative_flag :
    ∀ (m : Machine) (d : Int), m.pool[m.pc]? = some d →
      (decodeIr d = 2 → ∀ v, m.pool[(arOf d).toNat]? = some v →
        step m = .running { m with pc := (m.pc + 1) % 100,
                                   negative := decide (m.acc < v),
                                   acc := Int.tmod (m.acc - v) 1000 })
      ∧ (decodeIr d = 1 → ∀ v, m.pool[(arOf d).toNat]? = some v →
        step m = .running { m with pc := (m.pc + 1) % 100,
                                   negative := false,
                                   acc := Int.tmod (m.acc + v) 1000 })
      ∧ (decodeIr d = 5 → ∀ v, m.pool[(arOf d).toNat]? = some v →
        step m = .running { m with pc := (m.pc + 1) % 100,
                                   negative := false,
                                   acc := v })
      ∧ (decodeIr d = 9 → ∀ b bs rest, fgets4 m.input = (b :: bs, rest) →
        step m = .running { m with pc := (m.pc + 1) % 100,
                                   negative := (b == '-'),
                                   acc := if (b == '-') = true then atoiChars bs
                                          else atoiChars (b :: bs),
                                   input := rest })
      ∧ (decodeIr d = 8 →
        step m = .running { m with pc := if m.negative then (m.pc + 1) % 100
                                         else (arOf d).toNat })
      ∧ (decodeIr d = 3 → (arOf d).toNat < m.pool.length →
        step m = .running { m with pc := (m.pc + 1) % 100,
                                   pool := m.pool.set (arOf d).toNat m.acc })
      ∧ (decodeIr d = 6 → step m = .running { m with pc := (arOf d).toNat })
      ∧ (decodeIr d = 7 →
        step m = .running { m with pc := if m.acc = 0 then (arOf d).toNat
                                         else (m.pc + 1) % 100 })
      ∧ (decodeIr d = 10 →
        step m = .running { m with pc := (m.pc + 1) % 100,
                                   output := m.output ++ [toString m.acc] })
      ∧ (decodeIr d = 0 → step m = .halted { m with pc := (m.pc + 1) % 100 }) := by
  intro m d hm
  exact ⟨fun hir v hv => step_eq_sub hm hir hv,
         fun hir v hv => step_eq_add hm hir hv,
         fun hir v hv => step_eq_lda hm hir hv,
         fun hir b bs rest hfg => step_eq_inp hm hir hfg,
         fun hir => step_eq_brp hm hir,
         fun hir harlt => step_eq_sta hm hir harlt,
         fun hir => step_eq_bra hm hir,
         fun hir => step_eq_brz hm hir,
         fun hir => step_eq_out hm hir,
         fun hir => step_eq_hlt hm hir⟩

/-- Witness for C4: `SUB 01` on `m201` sets the flag since `0 < 5`. -/
theorem C4_witness :
    m201.pool[m201.pc]? = some 201 ∧ decodeIr 201 = 2
      ∧ m201.pool[(arOf 201).toNat]? = some 5
      ∧ step m201 = StepResult.running m201Post :=
  ⟨rfl, rfl, rfl,
   ((C4_negative_flag m201 201 rfl).1 rfl 5 rfl).trans (by rfl)⟩

/-- One step from a well-formed machine (100 mailboxes, program counter in
range) never takes the out-of-bounds branch, and a running successor is
well-formed again. -/
theorem step_no_oob {m : Machine} (hlen : m.pool.length = 100)
    (hpc : m.pc < 100) :
    step m ≠ StepResult.oob
      ∧ ∀ m', step m = .running m' → m'.pool.length = 100 ∧ m'.pc < 100 := by
  have hfetch : m.pool[m.pc]? ≠ none := by
    intro hcon
    rw [List.getElem?_eq_none_iff] at hcon
    omega
  obtain ⟨d, hd⟩ := Option.ne_none_iff_exists'.mp hfetch
  unfold step
  simp only [hd]
  by_cases h0 : decodeIr d = 0
  · rw [if_pos h0]
    exact ⟨fun hcon => StepResult.noConfusion hcon,
           fun m' hm' => StepResult.noConfusion hm'⟩
  rw [if_neg h0]
  by_cases h1 : decodeIr d = 1
  · rw [if_pos h1]
    have hdn : 0 ≤ d := decodeIr_pos_imp_nonneg (by omega)
    have har : (arOf d).toNat < 100 := arOf_toNat_lt hdn
    have hv : m.pool[(arOf d).toNat]? ≠ none := by
      intro hcon
      rw [List.getElem?_eq_none_iff] at hcon
      omega
    obtain ⟨v, hv'⟩ := Option.ne_none_iff_exists'.mp hv
    simp only [hv']
    refine ⟨fun hcon => StepResult.noConfusion hcon, ?_⟩
    intro m' hm'
    obtain rfl := (StepResult.running.inj hm').symm
    exact ⟨hlen, by dsimp only; omega⟩
  rw [if_neg h1]
  by_cases h2 : decodeIr d = 2
  · rw [if_pos h2]
    have hdn : 0 ≤ d := decodeIr_pos_imp_nonneg (by omega)
    have har : (arOf d).toNat < 100 := arOf_toNat_lt hdn
    have hv : m.pool[(arOf d).toNat]? ≠ none := by
      intro hcon
      rw [List.getElem?_eq_none_iff] at hcon
      omega
    obtain ⟨v, hv'⟩ := Option.ne_none_iff_exists'.mp hv
    simp only [hv']
    refine ⟨fun hcon => StepResult.noConfusion hcon, ?_⟩
    intro m' hm'
    obtain rfl := (StepResult.running.inj hm').symm
    exact ⟨hlen, by dsimp only; omega⟩
  rw [if_neg h2]
  by_cases h3 : decodeIr d = 3
  · rw [if_pos h3]
    have hdn : 0 ≤ d := decodeIr_pos_imp_nonneg (by omega)
    have har : (arOf d).toNat < 100 := arOf_toNat_lt hdn
    rw [if_pos (by omega)]
    refine ⟨fun hcon => StepResult.noConfusion hcon, ?_⟩
    intro m' hm'
    obtain rfl := (StepResult.running.inj hm').symm
    refine ⟨?_, by dsimp only; omega⟩
    dsimp only
    rw [List.length_set]
    exact hlen
  rw [if_neg h3]
  by_cases h5 : decodeIr d = 5
  · rw [if_pos h5]
    have hdn : 0 ≤ d := decodeIr_pos_imp_nonneg (by omega)
    have har : (arOf d).toNat < 100 := arOf_toNat_lt hdn
    have hv : m.pool[(arOf d).toNat]? ≠ none := by
      intro hcon
      rw [List.getElem?_eq_none_iff] at hcon
      omega
    obtain ⟨v, hv'⟩ := Option.ne_none_iff_exists'.mp hv
    simp only [hv']
    refine ⟨fun hcon => StepResult.noConfusion hcon, ?_⟩
    intro m' hm'
    obtain rfl := (StepResult.running.inj hm').symm
    exact ⟨hlen, by dsimp only; omega⟩
  rw [if_neg h5]
  by_cases h6 : decodeIr d = 6
  · rw [if_pos h6]
    have hdn : 0 ≤ d := decodeIr_pos_imp_nonneg (by omega)
    have har : (arOf d).toNat < 100 := arOf_toNat_lt hdn
    refine ⟨fun hcon => StepResult.noConfusion hcon, ?_⟩
    intro m' hm'
    obtain rfl := (StepResult.running.inj hm').symm
    exact ⟨hlen, by dsimp only; omega⟩
  rw [if_neg h6]
  by_cases h7 : decodeIr d = 7
  · rw [if_pos h7]
    have hdn : 0 ≤ d := decodeIr_pos_imp_nonneg (by omega)
    have har : (arOf d).toNat < 100 := arOf_toNat_lt hdn
    refine ⟨fun hcon => StepResult.noConfusion hcon, ?_⟩
    intro m' hm'
    obtain rfl := (StepResult.running.inj hm').symm
    refine ⟨hlen, ?_⟩
    dsimp only
    split <;> omega
  rw [if_neg h7]
  by_cases h8 : decodeIr d = 8
  · rw [if_pos h8]
    have hdn : 0 ≤ d := decodeIr_pos_imp_nonneg (by omega)
    have har : (arOf d).toNat < 100 := arOf_toNat_lt hdn
    refine ⟨fun hcon => StepResult.noConfusion hcon, ?_⟩
    intro m' hm'
    obtain rfl := (StepResult.running.inj hm').symm
    refine ⟨hlen, ?_⟩
    dsimp only
    split <;> omega
  rw [if_neg h8]
  by_cases h9 : decodeIr d = 9
  · rw [if_pos h9]
    rcases hfg : fgets4 m.input with ⟨buf, rest⟩
    cases buf with
    | nil =>
      simp only [hfg]
      exact ⟨fun hcon => StepResult.noConfusion hcon,
             fun m' hm' => StepResult.noConfusion hm'⟩
    | cons b bs =>
      simp only [hfg]
      refine ⟨fun hcon => StepResult.noConfusion hcon, ?_⟩
      intro m' hm'
      obtain rfl := (StepResult.running.inj hm').symm
      exact ⟨hlen, by dsimp only; omega⟩
  rw [if_neg h9]
  by_cases h10 : decodeIr d = 10
  · rw [if_pos h10]
    refine ⟨fun hcon => StepResult.noConfusion hcon, ?_⟩
    intro m' hm'
    obtain rfl := (StepResult.running.inj hm').symm
    exact ⟨hlen, by dsimp only; omega⟩
  rw [if_neg h10]
  exact ⟨fun hcon => StepResult.noConfusion hcon,
         fun m' hm' => StepResult.noConfusion hm'⟩

/-- Claim C10: from any 100-word image and any input stream, execution
never performs an out-of-bounds mailbox access: the `oob` branch of the
embedding is unreachable for any number of steps, even for self-modifying
programs. -/
theorem C10_no_oob :
    ∀ (fuel : Nat) (m : Machine), m.pool.length = 100 → m.pc < 100 →
      run fuel m ≠ StepResult.oob := by
  intro fuel
  induction fuel with
  | zero =>
    intro m _ _ hcon
    exact StepResult.noConfusion hcon
  | succ n ih =>
    intro m h1 h2
    obtain ⟨hno, hpres⟩ := step_no_oob h1 h2
    unfold run
    cases hs : step m with
    | running m' => exact ih m' (hpres m' hs).1 (hpres m' hs).2
    | halted m' => exact fun hcon => StepResult.noConfusion hcon
    | fault c m' => exact fun hcon => StepResult.noConfusion hcon
    | eof m' => exact fun hcon => StepResult.noConfusion hcon
    | oob => exact absurd hs hno

/-- Witness for C10: three steps on the all-zero image never go out of
bounds. -/
theorem C10_witness :
    mAllZero.pool.length = 100 ∧ mAllZero.pc < 100
      ∧ run 3 mAllZero ≠ StepResult.oob :=
  ⟨by rfl, by decide, C10_no_oob 3 mAllZero (by rfl) (by decide)⟩

/-- Claim C6, counterexample: `srcC6` assembles successfully, yet word 96 of
its image is `8 * 100 + (96 + 97 + 98) = 1091`, outside `0..999` — the
defensive multi-match fallback does not keep words in range. -/
theorem C6_counterexample :
    getWord (assemble zeroPool srcC6) 96 = some 1091 ∧ ¬ (1091 : Int) ≤ 999 :=
  ⟨by rfl, by decide⟩

/-- Claim C7 (amended to the partially-cleared pool): for any 100-word pool
state `init`, the program `INP\nSTA 99\nLDA 99\nOUT\nHLT` assembles
successfully; the five written words are 901, 399, 599, 902, 0, and running
the image on the input line `7` halts after echoing the line `"7"` to the
output stream.  Over the all-zero pool the image is exactly `roundImg`. -/
theorem C7_round_trip :
    ∀ init : List Int, init.length = 100 →
      assemble init srcRound = Except.ok (roundPool init)
        ∧ (roundPool init)[0]? = some 901 ∧ (roundPool init)[1]? = some 399
        ∧ (roundPool init)[2]? = some 599 ∧ (roundPool init)[3]? = some 902
        ∧ (roundPool init)[4]? = some 0
        ∧ run 12 (initMachine (roundPool init) ("7\n".toList))
            = StepResult.halted (roundMf init)
        ∧ (roundMf init).output = ["7"]
        ∧ isHalted (StepResult.halted (roundMf init)) = true := by
  intro init hlen
  have hset_len : (memset50 init).length = 100 := memset50_length hlen
  have hTlen : (roundPool init).length = 100 := by
    unfold roundPool
    simp only [List.length_set]
    exact hset_len
  have hass : assemble init srcRound = Except.ok (roundPool init) := by rfl
  have h0 : (roundPool init)[0]? = some 901 := by
    unfold roundPool
    rw [List.getElem?_set_ne (by decide), List.getElem?_set_ne (by decide),
        List.getElem?_set_ne (by decide), List.getElem?_set_ne (by decide)]
    exact List.getElem?_set_self (by omega)
  have h1 : (roundPool init)[1]? = some 399 := by
    unfold roundPool
    rw [List.getElem?_set_ne (by decide), List.getElem?_set_ne (by decide),
        List.getElem?_set_ne (by decide)]
    exact List.getElem?_set_self (by simp only [List.length_set]; omega)
  have h2 : (roundPool init)[2]? = some 599 := by
    unfold roundPool
    rw [List.getElem?_set_ne (by decide), List.getElem?_set_ne (by decide)]
    exact List.getElem?_set_self (by simp only [List.length_set]; omega)
  have h3 : (roundPool init)[3]? = some 902 := by
    unfold roundPool
    rw [List.getElem?_set_ne (by decide)]
    exact List.getElem?_set_self (by simp only [List.length_set]; omega)
  have h4 : (roundPool init)[4]? = some 0 := by
    unfold roundPool
    exact List.getElem?_set_self (by simp only [List.length_set]; omega)
  -- fetches from the pool after `STA 99`
  have h2' : ((roundPool init).set 99 7)[2]? = some 599 := by
    rw [List.getElem?_set_ne (by decide)]
    exact h2
  have h3' : ((roundPool init).set 99 7)[3]? = some 902 := by
    rw [List.getElem?_set_ne (by decide)]
    exact h3
  have h4' : ((roundPool init).set 99 7)[4]? = some 0 := by
    rw [List.getElem?_set_ne (by decide)]
    exact h4
  have h99 : ((roundPool init).set 99 7)[99]? = some 7 :=
    List.getElem?_set_self (by omega)
  -- the five machine steps
  have hfg0 : fgets4 (initMachine (roundPool init) ("7\n".toList)).input
      = ('7' :: ['\n'], ([] : List Char)) := by rfl
  have s0 : step (initMachine (roundPool init) ("7\n".toList))
      = StepResult.running (roundM1 init) :=
    (step_eq_inp h0 (by rfl) hfg0).trans (by rfl)
  have harlt1 : (arOf 399).toNat < (roundM1 init).pool.length := by
    show (99 : Nat) < (roundPool init).length
    omega
  have s1 : step (roundM1 init) = StepResult.running (roundM2 init) :=
    (step_eq_sta h1 (by rfl) harlt1).trans (by rfl)
  have hv2 : (roundM2 init).pool[(arOf 599).toNat]? = some 7 := h99
  have s2 : step (roundM2 init) = StepResult.running (roundM3 init) :=
    (step_eq_lda h2' (by rfl) hv2).trans (by rfl)
  have s3 : step (roundM3 init) = StepResult.running (roundM4 init) :=
    (step_eq_out h3' (by rfl)).trans (by rfl)
  have s4 : step (roundM4 init) = StepResult.halted (roundMf init) :=
    (step_eq_hlt h4' (by rfl)).trans (by rfl)
  -- chaining the fueled run
  have e0 : run 12 (initMachine (roundPool init) ("7\n".toList))
      = run 11 (roundM1 init) := @run_succ_running 11 _ _ s0
  have e1 : run 11 (roundM1 init) = run 10 (roundM2 init) :=
    @run_succ_running 10 _ _ s1
  have e2 : run 10 (roundM2 init) = run 9 (roundM3 init) :=
    @run_succ_running 9 _ _ s2
  have e3 : run 9 (roundM3 init) = run 8 (roundM4 init) :=
    @run_succ_running 8 _ _ s3
  have e4 : run 8 (roundM4 init) = StepResult.halted (roundMf init) :=
    @run_succ_halted 7 _ _ s4
  have hrun := (((e0.trans e1).trans e2).trans e3).trans e4
  exact ⟨hass, h0, h1, h2, h3, h4, hrun, rfl, rfl⟩

/-- Witness for C7: the round trip over the all-zero pool, whose image is
`roundImg`. -/
theorem C7_witness :
    zeroPool.length = 100
      ∧ roundPool zeroPool = roundImg
      ∧ assemble zeroPool srcRound = Except.ok (roundPool zeroPool)
      ∧ run 12 (initMachine (roundPool zeroPool) ("7\n".toList))
          = StepResult.halted (roundMf zeroPool)
      ∧ (roundMf zeroPool).output = ["7"] :=
  ⟨by rfl, by rfl, (C7_round_trip zeroPool (by rfl)).1,
   (C7_round_trip zeroPool (by rfl)).2.2.2.2.2.2.1,
   (C7_round_trip zeroPool (by rfl)).2.2.2.2.2.2.2.1⟩

end LMCVM
